import Mathlib

/-!
Verification of the mini-react incremental UI runtime embedded in
`src/src/App.js` (the `./lib/mini-react.js` module: `createElement`,
`render`, the work-loop reconciler, the committer, and the
`useState`/`useEffect` stateful-slot runtime).

The JavaScript source is shallowly embedded: JS values appearing in props
are modelled by `JsVal` (functions and non-null objects are identified by
an abstract id, so `===` / `Object.is` becomes decidable equality; the
source never compares floats here, so `NaN`/`-0` subtleties do not arise),
props objects by insertion-ordered association lists, host (DOM) side
effects by explicit operation traces, and thrown `TypeError`s by `Except`.
-/

set_option autoImplicit false

namespace MiniReact

/-- A JavaScript value as it occurs in props / dependency arrays.
`fn`/`obj` carry an abstract identity so that `===` is reference equality. -/
inductive JsVal where
  | undefV
  | nullV
  | str (s : String)
  | num (n : Int)
  | boolV (b : Bool)
  | fn (id : Nat)
  | obj (id : Nat)
deriving DecidableEq, Repr

/-- JS truthiness of a `JsVal` (`NaN` not modelled; no floats occur). -/
def truthy : JsVal → Bool
  | .undefV => false
  | .nullV => false
  | .str s => !(s == "")
  | .num n => !(n == 0)
  | .boolV b => b
  | .fn _ => true
  | .obj _ => true

/-- `a || b` on JS values. -/
def jsOr (a b : JsVal) : JsVal := if truthy a then a else b

/-- `value && typeof value === 'object'` (arrays aside, which never reach
the style branch in this codebase). -/
def isObjVal : JsVal → Bool
  | .obj _ => true
  | _ => false

/-- A JS props object: insertion-ordered key/value pairs (keys unique in
any object literal; `Object.keys` enumerates in insertion order). -/
def Props := List (String × JsVal)
deriving instance DecidableEq, Repr for Props

/-- `Object.keys(p)`. -/
def propKeys (p : Props) : List String := p.map (·.1)

/-- `p[k]` — JS property access, `undefined` when the key is absent. -/
def getProp (p : Props) (k : String) : JsVal :=
  ((p.find? (fun kv => kv.1 == k)).map (·.2)).getD .undefV

/-- `k in p`. -/
def hasKey (p : Props) (k : String) : Bool := p.any (fun kv => kv.1 == k)

/-- `const isEvent = key => key.startsWith('on')`. -/
def isEvent (k : String) : Bool := k.startsWith "on"

/-- `const isProperty = key => key !== 'children' && key !== 'style' && key !== 'key' && !isEvent(key)`. -/
def isProperty (k : String) : Bool :=
  !(k == "children") && !(k == "style") && !(k == "key") && !isEvent k

/-- `const isNew = (prev, next) => key => prev[key] !== next[key]`. -/
def isNew (prev next : Props) (k : String) : Bool :=
  decide (getProp prev k ≠ getProp next k)

/-- `const isGone = (prev, next) => key => !(key in next)`. -/
def isGone (next : Props) (k : String) : Bool := !hasKey next k

/-- `name.toLowerCase().substring(2)`. -/
def eventType (k : String) : String := (k.toLower).drop 2

/-- One host (DOM) mutation performed by `updateDom` — each constructor is
one concrete call in the source. -/
inductive HostOp where
  | removeListener (event : String) (handler : JsVal)
  | removeAttr (name : String)
  | clearDomProp (name : String)
  | setAttr (name : String) (value : JsVal)
  | assignStyle (value : JsVal)
  | setDomProp (name : String) (value : JsVal)
  | addListener (event : String) (handler : JsVal)
deriving DecidableEq, Repr

/-- `updateDom(dom, prevProps, nextProps)` as the ordered list of host
mutations it performs. `inDom` models the host-dependent `name in dom`
check. The four passes appear in source order. (The `style` branch of the
third pass is kept although `isProperty` filters `style` out, exactly as
in the source.) -/
def updateDom (inDom : String → Bool) (prevProps nextProps : Props) : List HostOp :=
  let removeOldListeners :=
    ((propKeys prevProps).filter fun k =>
        isEvent k && (!hasKey nextProps k || isNew prevProps nextProps k)).map
      fun k => HostOp.removeListener (eventType k) (getProp prevProps k)
  let removeOldProps :=
    ((propKeys prevProps).filter fun k =>
        isProperty k && isGone nextProps k).map
      fun k =>
        if k == "className" then HostOp.removeAttr "class"
        else if inDom k then HostOp.clearDomProp k
        else HostOp.removeAttr k
  let setNewProps :=
    ((propKeys nextProps).filter fun k =>
        isProperty k && isNew prevProps nextProps k).map
      fun k =>
        let value := getProp nextProps k
        if k == "className" then HostOp.setAttr "class" (jsOr value (JsVal.str ""))
        else if k == "style" && isObjVal value then HostOp.assignStyle value
        else if inDom k then HostOp.setDomProp k value
        else HostOp.setAttr k value
  let addNewListeners :=
    ((propKeys nextProps).filter fun k =>
        isEvent k && isNew prevProps nextProps k).map
      fun k => HostOp.addListener (eventType k) (getProp nextProps k)
  removeOldListeners ++ removeOldProps ++ setNewProps ++ addNewListeners

theorem isNew_self (p : Props) (k : String) : isNew p p k = false := by
  simp [isNew]

theorem hasKey_of_mem_propKeys {p : Props} {k : String} (h : k ∈ propKeys p) :
    hasKey p k = true := by
  simp only [propKeys, List.mem_map] at h
  obtain ⟨kv, hkv, rfl⟩ := h
  simp only [hasKey, List.any_eq_true]
  exact ⟨kv, hkv, by simp⟩

/-- On identical props every filter in `updateDom` rejects every key. -/
theorem updateDom_self (inDom : String → Bool) (p : Props) :
    updateDom inDom p p = [] := by
  unfold updateDom
  have h₁ : ((propKeys p).filter fun k =>
      isEvent k && (!hasKey p k || isNew p p k)) = [] := by
    rw [List.filter_eq_nil_iff]
    intro k hk
    simp [isNew_self, hasKey_of_mem_propKeys hk]
  have h₂ : ((propKeys p).filter fun k => isProperty k && isGone p k) = [] := by
    rw [List.filter_eq_nil_iff]
    intro k hk
    simp [isGone, hasKey_of_mem_propKeys hk]
  have h₃ : ((propKeys p).filter fun k => isProperty k && isNew p p k) = [] := by
    rw [List.filter_eq_nil_iff]
    intro k hk
    simp [isNew_self]
  have h₄ : ((propKeys p).filter fun k => isEvent k && isNew p p k) = [] := by
    rw [List.filter_eq_nil_iff]
    intro k hk
    simp [isNew_self]
  simp [h₁, h₂, h₃, h₄]

/-! ## Virtual-node construction: `createElement` (mini-react.js lines 452-476)

`createElement(type, props, ...children)` flattens the `children` rest
array with `Array.prototype.flat()` (depth 1) and maps each child through
`typeof child === 'object' ? child : createTextElement(child == null ? '' : child)`.
A child argument is modelled by `ChildArg`; `elem` stands for an
already-built virtual-node object (identified abstractly). -/

/-- One entry of the `...children` rest array. -/
inductive ChildArg where
  | elem (id : Nat)
  | nullChild
  | undefV
  | str (s : String)
  | num (n : Int)
  | boolV (b : Bool)
  | listArg (xs : List ChildArg)
deriving Repr

/-- An entry of the resulting `props.children` array after normalization. -/
inductive OutChild where
  | elemO (id : Nat)
  | textElem (nodeValue : JsVal)
  | nullO
  | listO (xs : List ChildArg)
deriving Repr

/-- `children.flat()` — flattens exactly one level of nesting. -/
def flat1 : List ChildArg → List ChildArg
  | [] => []
  | .listArg xs :: rest => xs ++ flat1 rest
  | c :: rest => c :: flat1 rest

/-- `typeof child === 'object' ? child : createTextElement(child == null ? '' : child)`.
`null` and arrays have `typeof === 'object'`, so they pass through
unchanged; `createTextElement(text)` wraps the primitive as the
`nodeValue` of a `TEXT_ELEMENT` node (with `undefined` coerced to `''`). -/
def normalizeChild : ChildArg → OutChild
  | .elem i => .elemO i
  | .nullChild => .nullO
  | .listArg xs => .listO xs
  | .undefV => .textElem (.str "")
  | .str s => .textElem (.str s)
  | .num n => .textElem (.num n)
  | .boolV b => .textElem (.boolV b)

/-- The `normalizedChildren` computed by `createElement`. -/
def createElementChildren (children : List ChildArg) : List OutChild :=
  (flat1 children).map normalizeChild

/-- The kind of a virtual/work node: host tag string, `TEXT_ELEMENT`,
the `Fragment` symbol, or a component function (by abstract identity). -/
inductive NodeKind where
  | host (tag : String)
  | text
  | fragment
  | comp (id : Nat)
deriving DecidableEq, Repr

/-- The virtual node returned by `createElement`; `children` is kept
beside the other props rather than inside them. -/
structure VirtualNode where
  type : NodeKind
  props : Props
  childList : List OutChild

/-- `createElement(type, props, ...children)`. -/
def createElement (type : NodeKind) (props : Option Props)
    (children : List ChildArg) : VirtualNode :=
  ⟨type, props.getD [], createElementChildren children⟩

/-- Is this resulting child still an array? -/
def isListO : OutChild → Bool
  | .listO _ => true
  | _ => false

/-- Resulting child is a proper virtual node (built element or text node). -/
def normalizedOut : OutChild → Bool
  | .elemO _ => true
  | .textElem _ => true
  | .nullO => false
  | .listO _ => false

/-- Argument is non-null and, if a list, nested only one level deep with
non-null entries — the regime in which one `flat()` fully flattens. -/
def shallowOk : ChildArg → Bool
  | .nullChild => false
  | .listArg xs => xs.all fun x =>
      match x with
      | .listArg _ => false
      | .nullChild => false
      | _ => true
  | _ => true

theorem normalizeChild_out {c : ChildArg}
    (hl : ∀ xs, c ≠ .listArg xs) (hn : c ≠ .nullChild) :
    normalizedOut (normalizeChild c) = true := by
  cases c with
  | listArg xs => exact absurd rfl (hl xs)
  | nullChild => exact absurd rfl hn
  | elem i => rfl
  | undefV => rfl
  | str s => rfl
  | num n => rfl
  | boolV b => rfl

/-- Under `shallowOk` arguments, every resulting child is a virtual node
(or text node): one `flat()` suffices and all primitives normalize. -/
theorem createElementChildren_normalized (children : List ChildArg)
    (h : ∀ c ∈ children, shallowOk c = true) :
    ∀ o ∈ createElementChildren children, normalizedOut o = true := by
  induction children with
  | nil => intro o ho; simp [createElementChildren, flat1] at ho
  | cons c rest ih =>
    intro o ho
    have hc := h c (by simp)
    have hrest : ∀ x ∈ rest, shallowOk x = true := fun x hx => h x (by simp [hx])
    cases c with
    | listArg xs =>
      simp only [createElementChildren, flat1, List.map_append, List.mem_append] at ho
      rcases ho with ho | ho
      · simp only [List.mem_map] at ho
        obtain ⟨x, hx, rfl⟩ := ho
        simp only [shallowOk, List.all_eq_true] at hc
        have := hc x hx
        apply normalizeChild_out
        · intro ys hys; subst hys; simp at this
        · intro hn; subst hn; simp at this
      · exact ih hrest o ho
    | nullChild => simp [shallowOk] at hc
    | elem i =>
      simp only [createElementChildren, flat1, List.map_cons, List.mem_cons] at ho
      rcases ho with rfl | ho
      · rfl
      · exact ih hrest o ho
    | undefV =>
      simp only [createElementChildren, flat1, List.map_cons, List.mem_cons] at ho
      rcases ho with rfl | ho
      · rfl
      · exact ih hrest o ho
    | str s =>
      simp only [createElementChildren, flat1, List.map_cons, List.mem_cons] at ho
      rcases ho with rfl | ho
      · rfl
      · exact ih hrest o ho
    | num n =>
      simp only [createElementChildren, flat1, List.map_cons, List.mem_cons] at ho
      rcases ho with rfl | ho
      · rfl
      · exact ih hrest o ho
    | boolV b =>
      simp only [createElementChildren, flat1, List.map_cons, List.mem_cons] at ho
      rcases ho with rfl | ho
      · rfl
      · exact ih hrest o ho

/-! ## Reconciler: `reconcileChildren` (mini-react.js lines 619-670)

The source walks the new element array (`index`) and the previous
committed child chain (`oldFiber`, via `sibling` links) in lockstep; both
advance every loop iteration. The old sibling chain is modelled as a
list, the new element array as a list of `Option Elem` (`none` models a
`null`/`undefined` entry such as produced by conditional rendering; an
index past the end of the array behaves identically to `none`). The first
output component is the new child chain (the fibers linked via
`wipFiberNode.child` / `prevSibling.sibling`, in creation order); the
second is this call's contribution to the global `deletions` array, in
push order. -/

/-- A previous-cycle (alternate) child fiber, as read by the reconciler. -/
structure OldFiberR where
  type : NodeKind
  props : Props
  dom : Option Nat
deriving DecidableEq, Repr

/-- A freshly produced virtual node, as read by the reconciler. -/
structure ElemR where
  type : NodeKind
  props : Props
deriving DecidableEq, Repr

/-- The `effectTag` values assigned by the reconciler. -/
inductive ETag where
  | placement
  | update
  | deletion
deriving DecidableEq, Repr

/-- A work node produced by reconciliation (`alternate` recorded as a flag
plus the reused `dom`; `placement` fibers always get `dom: null`,
`alternate: null`). -/
structure NewFiberR where
  type : NodeKind
  props : Props
  dom : Option Nat
  hasAlternate : Bool
  tag : ETag
deriving DecidableEq, Repr

/-- `reconcileChildren`'s loop. Per iteration: `sameType` reuses type,
`dom` and alternate with the new props and tag `UPDATE`; an element
without same-typed old fiber yields a fresh `PLACEMENT` fiber with no
dom; an old fiber without same-typed element is tagged `DELETION` and
pushed onto the deletions list. Once the element array is exhausted the
remaining loop iterations (`element === undefined`, `oldFiber` still
set) each tag one old fiber `DELETION` and create nothing, which the
first equation collapses. -/
def reconcile : List OldFiberR → List (Option ElemR) →
    List NewFiberR × List OldFiberR
  | olds, [] => ([], olds)
  | [], e? :: es =>
    let rest := reconcile [] es
    match e? with
    | some e => (⟨e.type, e.props, none, false, .placement⟩ :: rest.1, rest.2)
    | none => rest
  | o :: os, e? :: es =>
    let rest := reconcile os es
    match e? with
    | some e =>
      if e.type = o.type then
        (⟨o.type, e.props, o.dom, true, .update⟩ :: rest.1, rest.2)
      else
        (⟨e.type, e.props, none, false, .placement⟩ :: rest.1, o :: rest.2)
    | none => (rest.1, o :: rest.2)

/-- Re-rendering the identical child list (each element carrying the same
type and props as its predecessor) tags every position `UPDATE`, reusing
every dom handle, and deletes nothing. -/
theorem reconcile_same (olds : List OldFiberR) :
    reconcile olds (olds.map fun o => some ⟨o.type, o.props⟩) =
      (olds.map fun o => ⟨o.type, o.props, o.dom, true, ETag.update⟩, []) := by
  induction olds with
  | nil => simp [reconcile]
  | cons o os ih => simp [reconcile, ih]

/-! ## Stateful slots: `useState` (mini-react.js lines 729-760) -/

/-- An argument passed to a `setState` updater: a function of the previous
value or a replacement value. -/
inductive Action (α : Type) where
  | fn (f : α → α)
  | val (v : α)

/-- `typeof action === 'function' ? action(hook.state) : action`. -/
def applyAction {α : Type} (s : α) : Action α → α
  | .fn f => f s
  | .val v => v

/-- `actions.forEach(action => { hook.state = ... })`. -/
def runQueue {α : Type} (s : α) : List (Action α) → α
  | [] => s
  | a :: rest => runQueue (applyAction s a) rest

/-- A state slot: settled value plus the queue of pending updates pushed
by its updater since the owning component's last evaluation. -/
structure SHook (α : Type) where
  state : α
  queue : List (Action α)

/-- The slot-evaluation step of `useState(initial)`: build the new hook
from the alternate's hook at the same index (if any), draining its queue;
return the new hook (fresh empty queue) and the value handed back to the
component. -/
def useState {α : Type} (oldHook : Option (SHook α)) (initial : α) :
    SHook α × α :=
  let s0 := match oldHook with
    | some h => h.state
    | none => initial
  let actions := match oldHook with
    | some h => h.queue
    | none => []
  let s := runQueue s0 actions
  (⟨s, []⟩, s)

theorem runQueue_eq_foldl {α : Type} (s : α) (q : List (Action α)) :
    runQueue s q = q.foldl applyAction s := by
  induction q generalizing s with
  | nil => rfl
  | cons a rest ih => simp [runQueue, List.foldl_cons, ih]

/-! ## Stateful slots: `useEffect` (mini-react.js lines 762-787) -/

/-- `deps.some((dep, i) => !Object.is(dep, old[i]))`, where a lookup past
the end of the previous snapshot yields `undefined`. `Object.is` on the
values of `JsVal` coincides with decidable equality. -/
def depsSome : List JsVal → List JsVal → Bool
  | [], _ => false
  | d :: ds, [] => decide (d ≠ .undefV) || depsSome ds []
  | d :: ds, o :: os => decide (d ≠ o) || depsSome ds os

/-- An effect slot as stored in `wipFiber.hooks`. -/
structure UEHook where
  deps : Option (List JsVal)
  effectId : Nat
  cleanup : Option Nat
  hasChanged : Bool
deriving DecidableEq, Repr

/-- The slot-evaluation step of `useEffect(effect, deps)`: computes
`hasChanged = !oldHook || !deps || deps.some(...)` (with the previous
snapshot read as `oldHook.deps ? oldHook.deps[i] : undefined`), carries
the previous cleanup forward, and reports whether the hook was pushed
onto `pendingEffects`. -/
def useEffectStep (oldHook : Option UEHook) (eff : Nat)
    (deps : Option (List JsVal)) : UEHook × Bool :=
  let hasChanged :=
    match oldHook with
    | none => true
    | some oh =>
      match deps with
      | none => true
      | some ds => depsSome ds (oh.deps.getD [])
  (⟨deps, eff, oldHook.bind (·.cleanup), hasChanged⟩, hasChanged)

/-- The effect hook of a stable-identity component that declares
`useEffect(effect, [])` on every evaluation: render `0` creates the slot
(no alternate hook), render `n+1` re-evaluates it against render `n`'s. -/
def effectHookAt (eff : Nat) : Nat → UEHook × Bool
  | 0 => useEffectStep none eff (some [])
  | n + 1 => useEffectStep (some (effectHookAt eff n).1) eff (some [])

/-- How many of renders `0..n` pushed the slot onto `pendingEffects`. -/
def countEnqueued (eff : Nat) : Nat → Nat
  | 0 => if (effectHookAt eff 0).2 then 1 else 0
  | n + 1 => countEnqueued eff n + (if (effectHookAt eff (n + 1)).2 then 1 else 0)

theorem effectHookAt_succ_not_enqueued (eff n : Nat) :
    (effectHookAt eff (n + 1)).2 = false := by
  simp [effectHookAt, useEffectStep, depsSome]

theorem countEnqueued_eq_one (eff n : Nat) : countEnqueued eff n = 1 := by
  induction n with
  | zero => rfl
  | succ n ih => simp [countEnqueued, ih, effectHookAt_succ_not_enqueued]

/-! ## Committer: `commitRoot` / `commitWork` / `commitDeletion` /
`cleanupHooks` / `flushEffects` (mini-react.js lines 672-800)

A work-tree node is `Fiber.node hooks dom tag props altProps child sibling`
(`Fiber.nil` is a `null`/`undefined` link); hooks are reduced to their
`cleanup` field (an abstract callback id or `undefined`), which is all
`cleanupHooks` reads. `altProps` is `fiber.alternate.props`, the only
alternate field the committer touches. Effects of the commit are an
explicit event trace `Ev`; thrown `TypeError`s are `Except.error`. -/

/-- A JS error surfaced by the committer. -/
inductive JsErr where
  | nullDeref
  | typeError
deriving DecidableEq, Repr

/-- One observable event during a commit. -/
inductive Ev where
  | attr (target : Nat) (op : HostOp)
  | append (parent child : Nat)
  | removeNode (parent child : Nat)
  | cleanupRun (id : Nat)
  | effectRun (id : Nat)
  | effectThrew (id : Nat)
deriving DecidableEq, Repr

/-- Is this event the execution (or failed execution) of a pending effect
callback? -/
def isEffectEv : Ev → Bool
  | .effectRun _ => true
  | .effectThrew _ => true
  | _ => false

/-- Is this event a host-tree mutation? -/
def isHostMutEv : Ev → Bool
  | .attr _ _ => true
  | .append _ _ => true
  | .removeNode _ _ => true
  | _ => false

/-- A work-tree node (or a null link). -/
inductive Fiber where
  | nil : Fiber
  | node (hooks : List (Option Nat)) (dom : Option Nat) (tag : Option ETag)
      (props altProps : Props) (child sibling : Fiber) : Fiber
deriving Repr

/-- The recorded cleanups of a hook list, in declaration order. -/
def hookCleanups (hooks : List (Option Nat)) : List Nat := hooks.filterMap id

/-- `cleanupHooks(fiber)`: run (and clear) every recorded cleanup of this
fiber, then of its child subtree, then of its following sibling chain —
returning the cleanup ids in execution order together with the mutated
tree (every `hook.cleanup` set to `undefined`). The source's
`if (fiber.child)` / `if (fiber.sibling)` guards are the `nil` case. -/
def cleanupHooksGo : Fiber → List Nat × Fiber
  | .nil => ([], .nil)
  | .node hooks dom tag p ap child sib =>
    let tc := cleanupHooksGo child
    let ts := cleanupHooksGo sib
    (hookCleanups hooks ++ tc.1 ++ ts.1,
     .node (hooks.map fun _ => none) dom tag p ap tc.2 ts.2)

/-- The second (`domParent`) argument a call of `commitDeletion` receives:
a real host node, a number (the array index `Array.prototype.forEach`
supplies when `commitRoot` runs `deletions.forEach(commitDeletion)`), or
`null`/`undefined`. -/
inductive DomArg where
  | domNode (id : Nat)
  | num (n : Nat)
  | nullish
deriving DecidableEq, Repr

/-- The host-removal half of `commitDeletion`: walk down `child` links
from the deleted fiber to the first fiber owning a host node and evaluate
`domParent && domParent.removeChild(fiber.dom)`. A falsy `domParent`
(`null`, `undefined`, or the number `0`) skips the removal; a truthy
non-node (a positive forEach index) throws `TypeError` because numbers
have no `removeChild`; running off the end of the child chain throws
(property access on `undefined`). -/
def detachHost : Fiber → DomArg → Except JsErr (List Ev)
  | .nil, _ => .error .nullDeref
  | .node _ dom _ _ _ child _, dp =>
    match dom with
    | some d =>
      match dp with
      | .domNode pid => .ok [Ev.removeNode pid d]
      | .num 0 => .ok []
      | .num (_ + 1) => .error .typeError
      | .nullish => .ok []
    | none => detachHost child dp

/-- `commitDeletion(fiber, domParent)`. The source first runs
`cleanupHooks(fiber)` over the whole subtree (and following siblings), so
its recursive re-entry through `commitDeletion(fiber.child, domParent)`
finds every `hook.cleanup` already cleared and contributes no further
cleanup events; the trace is therefore the full cleanup pass followed by
the single host-removal walk, and the fiber is returned with all
cleanups cleared. -/
def commitDeletion (f : Fiber) (dp : DomArg) : Except JsErr (List Ev × Fiber) :=
  match f with
  | .nil => .error .nullDeref
  | .node _ _ _ _ _ _ _ =>
    let r := cleanupHooksGo f
    match detachHost f dp with
    | .error e => .error e
    | .ok evs => .ok ((r.1.map Ev.cleanupRun) ++ evs, r.2)

/-- `deletions.forEach(commitDeletion)` — `forEach` passes the array index
as `commitDeletion`'s `domParent` argument. -/
def deletionsPhaseGo (i : Nat) : List Fiber → Except JsErr (List Ev)
  | [] => .ok []
  | f :: rest =>
    match commitDeletion f (.num i) with
    | .error e => .error e
    | .ok (t, _) =>
      match deletionsPhaseGo (i + 1) rest with
      | .error e => .error e
      | .ok ts => .ok (t ++ ts)

/-- The deletions pass of `commitRoot`. -/
def deletionsPhase (ds : List Fiber) : Except JsErr (List Ev) :=
  deletionsPhaseGo 0 ds

/-- `DomArg` view of the `domParent` computed inside `commitWork`. -/
def toDomArg : Option Nat → DomArg
  | some p => .domNode p
  | none => .nullish

/-- `commitWork(fiber)`: pre-order walk of the finished work-in-progress
tree. `domParent` is the host node of the nearest ancestor owning one
(threaded down instead of the source's upward `parent` walk).
`PLACEMENT` with a dom appends it under `domParent` (skipped when null);
`UPDATE` with a dom applies `updateDom` against the alternate's props;
`DELETION` delegates to `commitDeletion` and returns without visiting
child or sibling. -/
def commitWork (inDom : String → Bool) (domParent : Option Nat) :
    Fiber → Except JsErr (List Ev)
  | .nil => .ok []
  | .node hooks dom tag props altProps child sib =>
    if tag = some ETag.deletion then
      match commitDeletion (.node hooks dom tag props altProps child sib)
          (toDomArg domParent) with
      | .error e => .error e
      | .ok (t, _) => .ok t
    else
      let own : List Ev :=
        if tag = some ETag.placement then
          match dom, domParent with
          | some d, some p => [Ev.append p d]
          | _, _ => []
        else if tag = some ETag.update then
          match dom with
          | some d => (updateDom inDom altProps props).map (Ev.attr d)
          | none => []
        else []
      let childDp := match dom with
        | some d => some d
        | none => domParent
      match commitWork inDom childDp child with
      | .error e => .error e
      | .ok tc =>
        match commitWork inDom domParent sib with
        | .error e => .error e
        | .ok ts => .ok (own ++ tc ++ ts)

/-- A pending-effects hook at flush time: the previously recorded cleanup
(if any) and the new effect callback, both as abstract ids. -/
structure EffHook where
  cleanup : Option Nat
  effect : Nat
deriving DecidableEq, Repr

/-- What an effect callback does when invoked: return a value (a cleanup
function or not), or throw. -/
inductive EffectResult where
  | ok (cleanup : Option Nat)
  | throws
deriving DecidableEq, Repr

/-- `flushEffects()`: shift hooks off the queue FIFO; per hook run the
previous cleanup (if a function), then the effect, recording a returned
cleanup on the hook. Returns (trace, processed hooks with their updated
`cleanup` field, hooks still queued). There is no `try`/`catch`: a
throwing effect propagates out of the `while` loop, leaving the
remaining hooks in the (module-global) queue. -/
def flushEffects (beh : Nat → EffectResult) :
    List EffHook → List Ev × List EffHook × List EffHook
  | [] => ([], [], [])
  | h :: rest =>
    let cEvs := match h.cleanup with
      | some c => [Ev.cleanupRun c]
      | none => []
    match beh h.effect with
    | .throws => (cEvs ++ [Ev.effectThrew h.effect], [h], rest)
    | .ok ret =>
      let r := flushEffects beh rest
      (cEvs ++ [Ev.effectRun h.effect] ++ r.1,
       { h with cleanup := match ret with
          | some c => some c
          | none => h.cleanup } :: r.2.1,
       r.2.2)

/-- The flush events a single hook contributes: its previous cleanup (if
any) immediately followed by its effect callback. -/
def hookFlushEvs (h : EffHook) : List Ev :=
  (match h.cleanup with
    | some c => [Ev.cleanupRun c]
    | none => []) ++ [Ev.effectRun h.effect]

/-- Expected flush trace of a whole queue, in declaration (queue) order. -/
def flushEvsOf : List EffHook → List Ev
  | [] => []
  | h :: rest => hookFlushEvs h ++ flushEvsOf rest

/-- The flush-time view of an effect slot: `flushEffects` reads only the
hook's `cleanup` and `effect` fields. -/
def toEffHook (h : UEHook) : EffHook := ⟨h.cleanup, h.effectId⟩

/-- The hook after its effect ran: a returned cleanup replaces the
recorded one, otherwise the old value is kept. -/
def recordCleanup (beh : Nat → EffectResult) (h : EffHook) : EffHook :=
  match beh h.effect with
  | .ok ret =>
    { h with cleanup := match ret with
      | some c => some c
      | none => h.cleanup }
  | .throws => h

/-- `commitRoot()`: the deletions pass, then `commitWork(wipRoot.child)`
with the mount container as host parent, then `flushEffects()`; the
pointer swap `currentRoot = wipRoot; wipRoot = null` happens after
(outside this trace). -/
def commitRoot (inDom : String → Bool) (beh : Nat → EffectResult)
    (ds : List Fiber) (wipChild : Fiber) (container : Nat)
    (queue : List EffHook) :
    Except JsErr (List Ev × List EffHook × List EffHook) :=
  match deletionsPhase ds with
  | .error e => .error e
  | .ok dt =>
    match commitWork inDom (some container) wipChild with
    | .error e => .error e
    | .ok wt =>
      let r := flushEffects beh queue
      .ok (dt ++ wt ++ r.1, r.2.1, r.2.2)

/-! ### Trace lemmas -/

theorem flushEffects_no_throw (beh : Nat → EffectResult) (q : List EffHook)
    (h : ∀ g ∈ q, beh g.effect ≠ .throws) :
    flushEffects beh q = (flushEvsOf q, q.map (recordCleanup beh), []) := by
  induction q with
  | nil => rfl
  | cons g rest ih =>
    have hg := h g (by simp)
    have hrest : ∀ g' ∈ rest, beh g'.effect ≠ .throws :=
      fun g' hg' => h g' (by simp [hg'])
    cases hb : beh g.effect with
    | throws => exact absurd hb hg
    | ok ret =>
      simp [flushEffects, hb, ih hrest, flushEvsOf, hookFlushEvs, recordCleanup]

theorem effectRun_mem_flushEvsOf {q : List EffHook} {g : EffHook}
    (hg : g ∈ q) : Ev.effectRun g.effect ∈ flushEvsOf q := by
  induction q with
  | nil => simp at hg
  | cons h rest ih =>
    rcases List.mem_cons.mp hg with rfl | hmem
    · simp [flushEvsOf, hookFlushEvs]
    · simp only [flushEvsOf, List.mem_append]
      exact Or.inr (ih hmem)

theorem flushEvsOf_no_hostMut (q : List EffHook) :
    ∀ e ∈ flushEvsOf q, isHostMutEv e = false := by
  induction q with
  | nil => simp [flushEvsOf]
  | cons h rest ih =>
    intro e he
    simp only [flushEvsOf, List.mem_append] at he
    rcases he with he | he
    · simp only [hookFlushEvs, List.mem_append] at he
      rcases he with he | he
      · cases hc : h.cleanup
        · simp [hc] at he
        · simp [hc] at he
          simp [he, isHostMutEv]
      · simp at he; simp [he, isHostMutEv]
    · exact ih e he

theorem detachHost_evs {f : Fiber} {dp : DomArg} {evs : List Ev}
    (h : detachHost f dp = .ok evs) :
    ∀ e ∈ evs, isEffectEv e = false ∧ isHostMutEv e = true := by
  induction f generalizing evs with
  | nil => simp [detachHost] at h
  | node hooks dom tag p ap child sib ihc ihs =>
    cases dom with
    | some d =>
      cases dp with
      | domNode pid =>
        simp only [detachHost, Except.ok.injEq] at h
        subst h
        intro e he
        simp at he
        simp [he, isEffectEv, isHostMutEv]
      | num n =>
        cases n with
        | zero =>
          simp only [detachHost, Except.ok.injEq] at h
          subst h; intro e he; simp at he
        | succ m => simp [detachHost] at h
      | nullish =>
        simp only [detachHost, Except.ok.injEq] at h
        subst h; intro e he; simp at he
    | none =>
      simp only [detachHost] at h
      exact ihc h

theorem commitDeletion_evs {f : Fiber} {dp : DomArg} {evs : List Ev}
    {f' : Fiber} (h : commitDeletion f dp = .ok (evs, f')) :
    ∀ e ∈ evs, isEffectEv e = false := by
  cases f with
  | nil => simp [commitDeletion] at h
  | node hooks dom tag p ap child sib =>
    simp only [commitDeletion] at h
    cases hd : detachHost (.node hooks dom tag p ap child sib) dp with
    | error e => simp [hd] at h
    | ok devs =>
      simp only [hd, Except.ok.injEq, Prod.mk.injEq] at h
      obtain ⟨rfl, rfl⟩ := h
      intro e he
      rcases List.mem_append.mp he with he | he
      · simp only [List.mem_map] at he
        obtain ⟨c, _, rfl⟩ := he
        rfl
      · exact (detachHost_evs hd e he).1

theorem deletionsPhaseGo_evs {i : Nat} {ds : List Fiber} {evs : List Ev}
    (h : deletionsPhaseGo i ds = .ok evs) :
    ∀ e ∈ evs, isEffectEv e = false := by
  induction ds generalizing i evs with
  | nil =>
    simp only [deletionsPhaseGo, Except.ok.injEq] at h
    subst h; intro e he; simp at he
  | cons f rest ih =>
    simp only [deletionsPhaseGo] at h
    cases hc : commitDeletion f (.num i) with
    | error e => simp [hc] at h
    | ok r =>
      obtain ⟨t, f'⟩ := r
      simp only [hc] at h
      cases hr : deletionsPhaseGo (i + 1) rest with
      | error e => simp [hr] at h
      | ok ts =>
        simp only [hr, Except.ok.injEq] at h
        subst h
        intro e he
        rcases List.mem_append.mp he with he | he
        · exact commitDeletion_evs hc e he
        · exact ih hr e he

theorem commitWork_evs (inDom : String → Bool) :
    ∀ (f : Fiber) (dp : Option Nat) (evs : List Ev),
      commitWork inDom dp f = .ok evs →
      ∀ e ∈ evs, isEffectEv e = false := by
  intro f
  induction f with
  | nil =>
    intro dp evs h
    simp only [commitWork, Except.ok.injEq] at h
    subst h; intro e he; simp at he
  | node hooks dom tag p ap child sib ihc ihs =>
    intro dp evs h
    simp only [commitWork] at h
    split at h
    · split at h
      · exact absurd h (by simp)
      · rename_i t f' hc
        simp only [Except.ok.injEq] at h
        subst h
        exact commitDeletion_evs hc
    · split at h
      · exact absurd h (by simp)
      · rename_i tc hcw
        split at h
        · exact absurd h (by simp)
        · rename_i ts hsw
          simp only [Except.ok.injEq] at h
          subst h
          intro e he
          rcases List.mem_append.mp he with he | he
          · rcases List.mem_append.mp he with he | he
            · split at he
              · split at he
                · simp only [List.mem_singleton] at he
                  simp [he, isEffectEv]
                · simp at he
              · split at he
                · split at he
                  · rename_i d hd
                    simp only [List.mem_map] at he
                    obtain ⟨op, _, rfl⟩ := he
                    rfl
                  · simp at he
                · simp at he
            · exact ihc _ _ hcw e he
          · exact ihs _ _ hsw e he

/-- Every node of the finished tree is an `UPDATE` whose props equal its
alternate's props — the shape a second render of the identical virtual
tree produces (see `reconcile_same`). -/
def allUpdateSame : Fiber → Bool
  | .nil => true
  | .node _ _ tag p ap child sib =>
    decide (tag = some ETag.update) && decide (ap = p)
      && allUpdateSame child && allUpdateSame sib

/-- Committing such a tree performs no host operation at all. -/
theorem commitWork_allUpdateSame (inDom : String → Bool) :
    ∀ (f : Fiber) (dp : Option Nat), allUpdateSame f = true →
      commitWork inDom dp f = .ok [] := by
  intro f
  induction f with
  | nil => intro dp _; rfl
  | node hooks dom tag p ap child sib ihc ihs =>
    intro dp hall
    simp only [allUpdateSame, Bool.and_eq_true, decide_eq_true_eq] at hall
    obtain ⟨⟨⟨htag, hap⟩, hc⟩, hs⟩ := hall
    subst htag hap
    simp only [commitWork]
    rw [if_neg (by simp), ihc _ hc, ihs dp hs]
    cases dom with
    | some d => simp [updateDom_self]
    | none => simp

/-! ## Engine state: `render` and `setState` (mini-react.js lines 541-559
and 746-755)

The module-global engine state is `nextUnitOfWork`, `wipRoot`,
`currentRoot`, `deletions` (`null` until the first render request) and
the `pendingEffects` queue. The root fiber built by `render`/`setState`
is reduced to the fields those functions read and write: the container
host node, the `props.children` element list (elements by abstract id)
and whether an `alternate` was attached. -/

/-- The root work node as built by `render` / `setState`. -/
structure RootFiber where
  dom : Nat
  childrenElems : List Nat
  hasAlternate : Bool
deriving DecidableEq, Repr

/-- The module-global engine state. -/
structure Engine where
  nextUnitOfWork : Option RootFiber
  wipRoot : Option RootFiber
  currentRoot : Option RootFiber
  deletionsList : Option (List Fiber)
  pendingEffects : List EffHook

/-- `render(element, container)`: build a fresh work-in-progress root over
the container (alternate = the committed root, if any), reset the
deletions list, and point `nextUnitOfWork` at it. Nothing else — in
particular `pendingEffects` — is touched. -/
def render (element container : Nat) (s : Engine) : Engine :=
  let w : RootFiber := ⟨container, [element], s.currentRoot.isSome⟩
  { s with wipRoot := some w, deletionsList := some [], nextUnitOfWork := some w }

/-- The `setState` closure returned by `useState`: push the action onto
the hook's queue, then rebuild the work-in-progress root from
`currentRoot` — dereferencing `currentRoot.dom` without a null check, so
a call before any commit throws — reset deletions, and schedule. Returns
the updated hook queue together with the new engine state. -/
def setState (hookQueue : List (Action Nat)) (action : Action Nat)
    (s : Engine) : Except JsErr (List (Action Nat) × Engine) :=
  let q := hookQueue ++ [action]
  match s.currentRoot with
  | none => .error .nullDeref
  | some r =>
    let w : RootFiber := ⟨r.dom, r.childrenElems, true⟩
    .ok (q, { s with wipRoot := some w, nextUnitOfWork := some w,
                     deletionsList := some [] })

/-! ## The claims -/

/-- Claim C1. The claim states that at commit time a deleted work node's
subtree cleanups run first and then its host handle is detached from its
host-tree parent. The cleanups do run first, but the detach never
happens: `commitRoot` runs `deletions.forEach(commitDeletion)`, so
`commitDeletion`'s `domParent` parameter receives the array index. For
the deletion at index 0 the falsy `0` short-circuits
`domParent && domParent.removeChild(...)` and the host node is silently
left attached; a second deletion owning a host node gets index 1, a
truthy number with no `removeChild`, and the commit throws `TypeError`.
This theorem evaluates the committed code at both failing inputs — two
deleted old fibers (from different parents), each owning a host node and
one recorded cleanup — and, third conjunct, shows that with a genuine
host parent (as at `commitWork`'s call site) `commitDeletion` would have
run the cleanup and then detached, confirming the claim describes the
intent. -/
theorem commitRoot_drops_host_detach :
    deletionsPhase
        [Fiber.node [some 7] (some 3) (some ETag.deletion)
          ([] : Props) ([] : Props) .nil .nil]
      = .ok [Ev.cleanupRun 7]
  ∧ deletionsPhase
        [Fiber.node [some 7] (some 3) (some ETag.deletion)
          ([] : Props) ([] : Props) .nil .nil,
         Fiber.node [some 8] (some 4) (some ETag.deletion)
          ([] : Props) ([] : Props) .nil .nil]
      = .error .typeError
  ∧ commitDeletion
        (Fiber.node [some 7] (some 3) (some ETag.deletion)
          ([] : Props) ([] : Props) .nil .nil)
        (DomArg.domNode 9)
      = .ok ([Ev.cleanupRun 7, Ev.removeNode 9 3],
             Fiber.node [none] (some 3) (some ETag.deletion)
               ([] : Props) ([] : Props) .nil .nil) :=
  ⟨rfl, rfl, rfl⟩

/-- Claim C2: the reconciler walks the previous child chain and the fresh
element list in lockstep by position. Same kind at a position ⇒ the new
work node reuses the old host handle, takes the new props, tag `UPDATE`;
an element with no same-kind positional partner ⇒ fresh fiber, no host
handle, tag `PLACEMENT`; a kind-mismatched or surplus old fiber is pushed
onto the deletions list. The last conjunct is the end-to-end scenario:
`[A,B,C]` (one kind, "value" 1,2,3) re-rendered as `[A',B']` (values
10,20) yields two updates carrying values 10 and 20 reusing doms 10 and
11, the old position-2 fiber deleted, and no placements. -/
theorem reconcile_positional_lockstep :
    (∀ (o : OldFiberR) (os : List OldFiberR) (e : ElemR)
        (es : List (Option ElemR)), e.type = o.type →
      reconcile (o :: os) (some e :: es) =
        (⟨o.type, e.props, o.dom, true, ETag.update⟩ :: (reconcile os es).1,
         (reconcile os es).2))
  ∧ (∀ (o : OldFiberR) (os : List OldFiberR) (e : ElemR)
        (es : List (Option ElemR)), e.type ≠ o.type →
      reconcile (o :: os) (some e :: es) =
        (⟨e.type, e.props, none, false, ETag.placement⟩ :: (reconcile os es).1,
         o :: (reconcile os es).2))
  ∧ (∀ (e : ElemR) (es : List (Option ElemR)),
      reconcile [] (some e :: es) =
        (⟨e.type, e.props, none, false, ETag.placement⟩ :: (reconcile [] es).1,
         (reconcile [] es).2))
  ∧ (∀ (o : OldFiberR) (os : List OldFiberR),
      reconcile (o :: os) [] = ([], o :: os))
  ∧ reconcile
      [⟨.host "div", [("value", .num 1)], some 10⟩,
       ⟨.host "div", [("value", .num 2)], some 11⟩,
       ⟨.host "div", [("value", .num 3)], some 12⟩]
      [some ⟨.host "div", [("value", .num 10)]⟩,
       some ⟨.host "div", [("value", .num 20)]⟩]
    = ([⟨.host "div", [("value", .num 10)], some 10, true, .update⟩,
        ⟨.host "div", [("value", .num 20)], some 11, true, .update⟩],
       [⟨.host "div", [("value", .num 3)], some 12⟩]) := by
  refine ⟨?_, ?_, ?_, ?_, by decide⟩
  · intro o os e es h
    simp [reconcile, h]
  · intro o os e es h
    simp [reconcile, h]
  · intro e es
    simp [reconcile]
  · intro o os
    simp [reconcile]

/-- Witness for C2's hypothesised conjuncts at a concrete position. -/
theorem reconcile_positional_lockstep_witness :
    reconcile [⟨NodeKind.host "p", [], none⟩]
        [some ⟨NodeKind.host "p", [("id", JsVal.num 1)]⟩]
      = ([⟨NodeKind.host "p", [("id", JsVal.num 1)], none, true, ETag.update⟩],
         []) := by
  have h := reconcile_positional_lockstep.1
    ⟨NodeKind.host "p", [], none⟩ [] ⟨NodeKind.host "p", [("id", JsVal.num 1)]⟩ []
    rfl
  simp only [reconcile] at h
  exact h

/-- Claim C3: the value `useState` hands back at the owning component's
next evaluation is the left-fold of the queued updates (function updates
applied, value updates replacing) over the slot's prior settled value, in
submission order; on creation it is the initial value; and the value
returned is exactly the value stored as the slot's new settled state. -/
theorem useState_queue_foldl :
    ∀ (α : Type) (prior initial : α) (q : List (Action α))
      (old : Option (SHook α)),
      (useState (some ⟨prior, q⟩) initial).2 = q.foldl applyAction prior
    ∧ (useState (none : Option (SHook α)) initial).2 = initial
    ∧ (useState old initial).1.state = (useState old initial).2 := by
  intro α prior initial q old
  refine ⟨?_, rfl, ?_⟩
  · simp [useState, runQueue_eq_foldl]
  · cases old <;> rfl

/-- Claim C4: an effect slot declared with an empty dependency list by a
stable-identity component is enqueued exactly at its creation render and
at no later re-render (`deps.some` on `[]` is `false`, so `hasChanged`
reduces to `!oldHook`); over renders `0..n` it is enqueued exactly once;
and the flush of the creation commit runs its callback exactly once. -/
theorem useEffect_empty_deps_once :
    ∀ eff : Nat,
      (effectHookAt eff 0).2 = true
    ∧ (∀ n, (effectHookAt eff (n + 1)).2 = false)
    ∧ (∀ n, countEnqueued eff n = 1)
    ∧ (∀ (beh : Nat → EffectResult) (ret : Option Nat), beh eff = .ok ret →
        (flushEffects beh [toEffHook (effectHookAt eff 0).1]).1
          = [Ev.effectRun eff]) := by
  intro eff
  refine ⟨rfl, effectHookAt_succ_not_enqueued eff, countEnqueued_eq_one eff, ?_⟩
  intro beh ret hb
  simp [effectHookAt, useEffectStep, toEffHook, flushEffects, hb]

/-- Witness for C4 at a concrete slot and behaviour. -/
theorem useEffect_empty_deps_once_witness :
    (effectHookAt 0 0).2 = true
  ∧ (effectHookAt 0 1).2 = false
  ∧ countEnqueued 0 5 = 1
  ∧ (flushEffects (fun _ => EffectResult.ok none)
      [toEffHook (effectHookAt 0 0).1]).1 = [Ev.effectRun 0] :=
  ⟨(useEffect_empty_deps_once 0).1,
   (useEffect_empty_deps_once 0).2.1 0,
   (useEffect_empty_deps_once 0).2.2.1 5,
   (useEffect_empty_deps_once 0).2.2.2 (fun _ => EffectResult.ok none) none rfl⟩

/-- Claim C5: in a commit cycle the trace is the deletion pass, then the
host mutations of `commitWork`, then the flush — no effect callback runs
in the first two segments, the flush segment performs no host mutation,
and the flush processes the queue in declaration (queue) order, running
each slot's previous cleanup immediately before its new callback and
recording any returned cleanup on the slot. -/
theorem commit_effects_after_mutations
    (inDom : String → Bool) (beh : Nat → EffectResult)
    (ds : List Fiber) (wip : Fiber) (container : Nat) (q : List EffHook)
    (dt wt : List Ev)
    (hd : deletionsPhase ds = .ok dt)
    (hw : commitWork inDom (some container) wip = .ok wt)
    (hq : ∀ g ∈ q, beh g.effect ≠ .throws) :
    commitRoot inDom beh ds wip container q
      = .ok (dt ++ wt ++ flushEvsOf q, q.map (recordCleanup beh), [])
  ∧ (∀ e ∈ dt ++ wt, isEffectEv e = false)
  ∧ (∀ e ∈ flushEvsOf q, isHostMutEv e = false) := by
  refine ⟨?_, ?_, flushEvsOf_no_hostMut q⟩
  · simp [commitRoot, hd, hw, flushEffects_no_throw beh q hq]
  · intro e he
    rcases List.mem_append.mp he with he | he
    · exact deletionsPhaseGo_evs hd e he
    · exact commitWork_evs inDom wip _ _ hw e he

/-- Witness for C5: a one-placement tree with one queued effect whose
cleanup `3` runs before its callback `4`, which records cleanup `5`. -/
theorem commit_effects_after_mutations_witness :
    commitRoot (fun _ => false) (fun _ => EffectResult.ok (some 5)) []
        (Fiber.node [] (some 2) (some ETag.placement)
          ([] : Props) ([] : Props) .nil .nil) 1
        [⟨some 3, 4⟩]
      = .ok (([] : List Ev) ++ [Ev.append 1 2] ++ flushEvsOf [⟨some 3, 4⟩],
             [⟨some 3, 4⟩].map (recordCleanup (fun _ => EffectResult.ok (some 5))),
             []) :=
  (commit_effects_after_mutations (fun _ => false)
    (fun _ => EffectResult.ok (some 5)) []
    (Fiber.node [] (some 2) (some ETag.placement)
      ([] : Props) ([] : Props) .nil .nil) 1
    [⟨some 3, 4⟩] [] [Ev.append 1 2] rfl rfl (by decide)).1

/-- Claim C6: committing the identical virtual tree again performs zero
attribute/listener mutations — `updateDom` on equal props emits nothing,
re-reconciling an identical child list marks everything `UPDATE` (no
placements, no deletions, props preserved), and committing a tree of
such updates produces an empty host trace. -/
theorem recommit_same_tree_no_mutations
    (inDom : String → Bool) (p : Props) (olds : List OldFiberR)
    (f : Fiber) (dp : Option Nat) (h : allUpdateSame f = true) :
    updateDom inDom p p = []
  ∧ reconcile olds (olds.map fun o => some ⟨o.type, o.props⟩)
      = (olds.map fun o => ⟨o.type, o.props, o.dom, true, ETag.update⟩, [])
  ∧ commitWork inDom dp f = .ok [] :=
  ⟨updateDom_self inDom p, reconcile_same olds,
   commitWork_allUpdateSame inDom f dp h⟩

/-- Witness for C6 on a concrete one-node tree. -/
theorem recommit_same_tree_no_mutations_witness :
    updateDom (fun _ => true)
        [("className", JsVal.str "x"), ("onClick", JsVal.fn 1)]
        [("className", JsVal.str "x"), ("onClick", JsVal.fn 1)] = []
  ∧ reconcile [⟨NodeKind.host "div", [("id", JsVal.num 1)], some 1⟩]
        [some ⟨NodeKind.host "div", [("id", JsVal.num 1)]⟩]
      = ([⟨NodeKind.host "div", [("id", JsVal.num 1)], some 1, true,
            ETag.update⟩], [])
  ∧ commitWork (fun _ => true) (some 0)
        (Fiber.node [] (some 1) (some ETag.update)
          [("id", JsVal.num 1)] [("id", JsVal.num 1)] .nil .nil)
      = .ok [] :=
  recommit_same_tree_no_mutations (fun _ => true)
    [("className", JsVal.str "x"), ("onClick", JsVal.fn 1)]
    [⟨NodeKind.host "div", [("id", JsVal.num 1)], some 1⟩]
    (Fiber.node [] (some 1) (some ETag.update)
      [("id", JsVal.num 1)] [("id", JsVal.num 1)] .nil .nil)
    (some 0) (by decide)

/-- Counterexample to claim C7: with effects `1` (throws) and `2` queued,
the flush trace ends at the throw — the later-queued effect `2` never
executes, so one effect's failure is not isolated to its slot. -/
theorem flush_throw_not_isolated_counterexample :
    (flushEffects (fun i => if i == 1 then .throws else .ok none)
        [⟨none, 1⟩, ⟨none, 2⟩]).1 = [Ev.effectThrew 1]
  ∧ Ev.effectRun 2 ∉ (flushEffects (fun i => if i == 1 then .throws else .ok none)
        [⟨none, 1⟩, ⟨none, 2⟩]).1
  ∧ (flushEffects (fun i => if i == 1 then .throws else .ok none)
        [⟨none, 1⟩, ⟨none, 2⟩]).2.2 = [⟨none, 2⟩] :=
  ⟨rfl, by decide, rfl⟩

/-- Claim C7 as amended: `flushEffects` has no `try`/`catch`, so the first
throwing effect callback aborts the flush — every effect queued before it
runs normally (cleanup, callback, recorded cleanup), its own cleanup
still ran, and every effect queued after it is not invoked during that
flush and remains in the pending queue for a later flush. -/
theorem flush_throw_aborts_rest
    (beh : Nat → EffectResult) (q1 : List EffHook) (h : EffHook)
    (q2 : List EffHook)
    (h1 : ∀ g ∈ q1, beh g.effect ≠ .throws)
    (h2 : beh h.effect = .throws) :
    flushEffects beh (q1 ++ h :: q2)
      = (flushEvsOf q1 ++ (match h.cleanup with
            | some c => [Ev.cleanupRun c]
            | none => []) ++ [Ev.effectThrew h.effect],
         q1.map (recordCleanup beh) ++ [h], q2) := by
  induction q1 with
  | nil => simp [flushEffects, h2, flushEvsOf]
  | cons g rest ih =>
    have hg := h1 g (by simp)
    have hrest : ∀ g' ∈ rest, beh g'.effect ≠ .throws :=
      fun g' hg' => h1 g' (by simp [hg'])
    cases hb : beh g.effect with
    | throws => exact absurd hb hg
    | ok ret =>
      simp [flushEffects, hb, ih hrest, flushEvsOf, hookFlushEvs, recordCleanup]

/-- Witness for the amended C7: a single throwing effect with a recorded
cleanup runs that cleanup, throws, and leaves an empty queue. -/
theorem flush_throw_aborts_rest_witness :
    flushEffects (fun _ => EffectResult.throws) [⟨some 4, 9⟩]
      = (flushEvsOf [] ++ [Ev.cleanupRun 4] ++ [Ev.effectThrew 9],
         ([] : List EffHook).map (recordCleanup fun _ => EffectResult.throws)
           ++ [⟨some 4, 9⟩], []) :=
  flush_throw_aborts_rest (fun _ => EffectResult.throws) [] ⟨some 4, 9⟩ []
    (by simp) rfl

/-- Counterexample to claim C8: `children.flat()` flattens only one
level, and `null` has `typeof === 'object'`, so with children
`[null, [[elem]]]` the result keeps the `null` as-is (no text node) and
still contains a list element. -/
theorem createElement_children_counterexample :
    (createElement (NodeKind.host "div") none
        [ChildArg.nullChild,
         ChildArg.listArg [ChildArg.listArg [ChildArg.elem 0]]]).childList
      = [OutChild.nullO, OutChild.listO [ChildArg.elem 0]]
  ∧ ((createElement (NodeKind.host "div") none
        [ChildArg.nullChild,
         ChildArg.listArg [ChildArg.listArg [ChildArg.elem 0]]]).childList.any
        isListO) = true :=
  ⟨rfl, rfl⟩

/-- Claim C8 as amended: `createElement` flattens exactly one level of
nested child lists and normalizes each non-object primitive child
(string, number, boolean; `undefined` as the empty string) into a text
virtual node; `null` children and lists nested two or more levels deep
pass through unchanged. Hence whenever no child is `null` and no list is
nested beyond one level, every element of the resulting child list is a
proper virtual node. -/
theorem createElement_children_amended (t : NodeKind) (props : Option Props)
    (children : List ChildArg) (h : ∀ c ∈ children, shallowOk c = true) :
    ∀ o ∈ (createElement t props children).childList, normalizedOut o = true :=
  createElementChildren_normalized children h

/-- Witness for the amended C8 on a mixed concrete child list. -/
theorem createElement_children_amended_witness :
    ((createElement (NodeKind.host "ul") none
        [ChildArg.str "a",
         ChildArg.listArg [ChildArg.num 1, ChildArg.elem 2],
         ChildArg.undefV]).childList.all normalizedOut) = true :=
  List.all_eq_true.mpr
    (createElement_children_amended (NodeKind.host "ul") none
      [ChildArg.str "a",
       ChildArg.listArg [ChildArg.num 1, ChildArg.elem 2],
       ChildArg.undefV] (by decide))

/-- Claim C9: the `setState` updater dereferences `currentRoot.dom` with
no null check, so a call made before any commit (while the committed
root is still `null`) throws instead of scheduling; when a committed
root exists the call succeeds, enqueues the action, and schedules a
whole-tree render rooted at the committed root. -/
theorem setState_requires_committed_root
    (q : List (Action Nat)) (a : Action Nat) (s : Engine) :
    (s.currentRoot = none → setState q a s = .error .nullDeref)
  ∧ (∀ r, s.currentRoot = some r →
      setState q a s = .ok (q ++ [a],
        { s with wipRoot := some ⟨r.dom, r.childrenElems, true⟩,
                 nextUnitOfWork := some ⟨r.dom, r.childrenElems, true⟩,
                 deletionsList := some [] })) := by
  constructor
  · intro h
    simp [setState, h]
  · intro r h
    simp [setState, h]

/-- Witness for C9: before the first commit (`currentRoot = null`) the
updater throws. -/
theorem setState_requires_committed_root_witness :
    setState [] (Action.val 5) ⟨none, none, none, none, []⟩
      = .error .nullDeref :=
  (setState_requires_committed_root [] (Action.val 5)
    ⟨none, none, none, none, []⟩).1 rfl

/-- Claim C10: starting a new render while a work-in-progress root exists
resets `wipRoot`, `nextUnitOfWork` and the deletions list but leaves
`pendingEffects` untouched (for both `render` and a successful
`setState`), and every effect still queued runs at the next flush that
completes. -/
theorem restart_preserves_pending_effects
    (s : Engine) (w : RootFiber) (e c : Nat) (q : List (Action Nat))
    (a : Action Nat) (_hw : s.wipRoot = some w) :
    ((render e c s).pendingEffects = s.pendingEffects
      ∧ (render e c s).wipRoot = some ⟨c, [e], s.currentRoot.isSome⟩
      ∧ (render e c s).nextUnitOfWork = some ⟨c, [e], s.currentRoot.isSome⟩
      ∧ (render e c s).deletionsList = some [])
  ∧ (∀ (r : RootFiber) (q' : List (Action Nat)) (s' : Engine),
        s.currentRoot = some r → setState q a s = .ok (q', s') →
        s'.pendingEffects = s.pendingEffects
      ∧ s'.deletionsList = some []
      ∧ s'.nextUnitOfWork = s'.wipRoot)
  ∧ (∀ beh : Nat → EffectResult,
        (∀ g ∈ s.pendingEffects, beh g.effect ≠ .throws) →
        ∀ g ∈ (render e c s).pendingEffects,
          Ev.effectRun g.effect ∈ (flushEffects beh (render e c s).pendingEffects).1) := by
  refine ⟨⟨rfl, rfl, rfl, rfl⟩, ?_, ?_⟩
  · intro r q' s' hr hok
    simp only [setState, hr] at hok
    obtain ⟨-, rfl⟩ := Prod.mk.injEq .. ▸ Except.ok.injEq .. ▸ hok
    · exact ⟨rfl, rfl, rfl⟩
  · intro beh hnothrow g hg
    have hpe : (render e c s).pendingEffects = s.pendingEffects := rfl
    rw [hpe] at hg ⊢
    rw [flushEffects_no_throw beh s.pendingEffects hnothrow]
    exact effectRun_mem_flushEvsOf hg

/-- Witness for C10 on a concrete engine holding one queued effect. -/
theorem restart_preserves_pending_effects_witness :
    ((render 9 1 ⟨some ⟨1, [7], false⟩, some ⟨1, [7], false⟩,
        some ⟨1, [7], true⟩, some [], [⟨none, 3⟩]⟩).pendingEffects
      = [⟨none, 3⟩])
  ∧ Ev.effectRun 3 ∈ (flushEffects (fun _ => EffectResult.ok none)
      (render 9 1 ⟨some ⟨1, [7], false⟩, some ⟨1, [7], false⟩,
        some ⟨1, [7], true⟩, some [], [⟨none, 3⟩]⟩).pendingEffects).1 :=
  ⟨(restart_preserves_pending_effects
      ⟨some ⟨1, [7], false⟩, some ⟨1, [7], false⟩, some ⟨1, [7], true⟩,
        some [], [⟨none, 3⟩]⟩ ⟨1, [7], false⟩ 9 1 [] (Action.val 0) rfl).1.1,
   (restart_preserves_pending_effects
      ⟨some ⟨1, [7], false⟩, some ⟨1, [7], false⟩, some ⟨1, [7], true⟩,
        some [], [⟨none, 3⟩]⟩ ⟨1, [7], false⟩ 9 1 [] (Action.val 0) rfl).2.2
      (fun _ => EffectResult.ok none) (by decide) ⟨none, 3⟩ (by decide)⟩

end MiniReact
